import Mathlib

/-!
Verification of the nicotine-reward dynamical-systems engine
(`src/model.py`, `src/stability.py`, `src/bifurcation.py`).

The numeric layer (`dynamics`, `baseline_state`, `jacobian`) is embedded
exactly, over an arbitrary ordered field (rationals stand in for the
floating-point doubles of the source; default parameter values are the
exact decimals of `_default_parameters`).  The sweep layer
(`continuation_1d`, `parameter_sensitivity`, `critical_transition_threshold`,
`hysteresis_loop`, `simulate`, `steady_state`) is embedded with the model's
parameter dictionary as an explicit association list threaded through each
call, and with the external numeric routines (`solve_ivp`, `fsolve`,
`eig`-based eigenanalysis, `brentq`) as oracle parameters: each oracle is a
pure function of the parameter map and the call arguments, which is faithful
because those routines only read the model state.  `Option`/`Except` model
NaN results and Python exceptions.
-/

set_option maxHeartbeats 1000000

namespace NicotineReinforcement

/-- The model's named parameter set (`_default_parameters` keys), over a
field `K`.  The source stores these in a dict; this structure view is used
by the closed-form numeric claims. -/
structure Params (K : Type) where
  k_N : K
  k_on : K
  k_off : K
  k_des : K
  k_res : K
  k_D : K
  k_clear : K
  epsilon : K
  D_0 : K
  R_T_0 : K

/-- Map a function over all parameter values (used to cast the default
rational values into ℝ or ℂ). -/
def Params.map {K L : Type} (f : K → L) (p : Params K) : Params L :=
  ⟨f p.k_N, f p.k_on, f p.k_off, f p.k_des, f p.k_res, f p.k_D, f p.k_clear,
   f p.epsilon, f p.D_0, f p.R_T_0⟩

/-- `NicotineRewardModel._default_parameters`: the exact decimal values of
the source, as rationals. -/
def defaultParams : Params ℚ :=
  ⟨3/50, 1/2, 1/10, 1/20, 1/100, 1, 1/2, 1/10000, 1/2, 1⟩

/-- `NicotineRewardModel.dynamics(t, y, input_func)` from `model.py`:
state order `[N, R_a, R_d, R_T, D]`, derivative order
`[dN, dR_a, dR_d, dR_T, dD]`, with the clamp
`R_available = max(0, R_T - R_a - R_d)`. -/
def dynamics {K : Type} [LinearOrderedField K] (p : Params K) (t : K)
    (y : Fin 5 → K) (input_func : K → K) : Fin 5 → K :=
  let N := y 0
  let R_a := y 1
  let R_d := y 2
  let R_T := y 3
  let D := y 4
  let I := input_func t
  let R_available := max 0 (R_T - R_a - R_d)
  ![I - p.k_N * N,
    p.k_on * N * R_available - p.k_off * R_a - p.k_des * R_a,
    p.k_des * R_a - p.k_res * R_d,
    p.epsilon * (D - p.D_0),
    p.k_D * R_a - p.k_clear * D]

/-- `NicotineRewardModel.baseline_state()`: `[0, 0, 0, R_T_0, D_0]`. -/
def baseline_state {K : Type} [LinearOrderedField K] (p : Params K) : Fin 5 → K :=
  ![0, 0, 0, p.R_T_0, p.D_0]

/-- `StabilityAnalyzer.jacobian(y, I_const)` from `stability.py`: the
closed-form 5×5 matrix written in the source.  Note the source uses the
unclamped `R_available = R_T - R_a - R_d` here, and `I_const` is unused. -/
def jacobian {K : Type} [Field K] (p : Params K) (y : Fin 5 → K)
    (I_const : K) : Matrix (Fin 5) (Fin 5) K :=
  Matrix.of
    ![![-p.k_N, 0, 0, 0, 0],
      ![p.k_on * (y 3 - y 1 - y 2), -(p.k_on * y 0) - p.k_off - p.k_des,
        -(p.k_on * y 0), p.k_on * y 0, 0],
      ![0, p.k_des, -p.k_res, 0, 0],
      ![0, 0, 0, 0, p.epsilon],
      ![0, p.k_D, 0, 0, -p.k_clear]]

/-- Eigenvalue of a complex 5×5 matrix, as computed (in exact arithmetic)
by the `scipy.linalg.eig` call inside `eigenanalysis`. -/
def hasEigen (A : Matrix (Fin 5) (Fin 5) ℂ) (μ : ℂ) : Prop :=
  ∃ v : Fin 5 → ℂ, v ≠ 0 ∧ A.mulVec v = μ • v

/-- The Jacobian at `baseline_state()` under zero intake with default
parameters, over ℚ (cast into ℂ in the eigenvalue statements). -/
def Jbase : Matrix (Fin 5) (Fin 5) ℚ :=
  jacobian defaultParams (baseline_state defaultParams) 0


/-! ### The mutable parameter dictionary and the sweep layer

`NicotineRewardModel.params` is a Python dict (insertion-ordered, string
keys).  It is embedded as an association list threaded explicitly through
every operation.  `getP?` is `dict.get` (first match, `none` when absent),
`setP` is `dict[k] = v` (replace in place when the key is present,
append otherwise). -/

/-- The model's parameter dictionary: an insertion-ordered association
list from names to values. -/
abbrev ParamMap := List (String × ℚ)

/-- `params.get(key)`: first value stored under `key`, if any. -/
def getP? : ParamMap → String → Option ℚ
  | [], _ => none
  | (k, v) :: rest, key => if k = key then some v else getP? rest key

/-- `params[key] = v`: replace the value in place when the key is present,
append a new entry otherwise (Python dict assignment). -/
def setP : ParamMap → String → ℚ → ParamMap
  | [], key, v => [(key, v)]
  | (k, w) :: rest, key, v =>
    if k = key then (k, v) :: rest else (k, w) :: setP rest key v

/-- `_default_parameters()` as stored in the dict, in source order. -/
def default_parameters : ParamMap :=
  [("k_N", 3/50), ("k_on", 1/2), ("k_off", 1/10), ("k_des", 1/20),
   ("k_res", 1/100), ("k_D", 1), ("k_clear", 1/2), ("epsilon", 1/10000),
   ("D_0", 1/2), ("R_T_0", 1)]

/-- A state vector `[N, R_a, R_d, R_T, D]`. -/
abbrev State := Fin 5 → ℚ

/-- A trajectory: the sampled states returned by `solve_ivp` (the code
only consumes the final sample). -/
abbrev Traj := List State

/-- Oracle for `scipy.integrate.solve_ivp`: given the current parameter
dictionary, the time span, the intake function, the initial state and the
method string, it returns the sampled trajectory, or `none` when the
integrator reports failure (`sol.success = False`).  `solve_ivp` only
reads the model parameters (through `dynamics`), so a pure function of
them is faithful. -/
abbrev IvpOracle := ParamMap → ℚ × ℚ → (ℚ → ℚ) → State → String → Option Traj

/-- Oracle for `scipy.optimize.fsolve` applied to `steady_state_eqs`: the
root solver's returned iterate as a function of the parameter dictionary,
the constant intake, the upregulation flag and the warm-start guess;
`none` models an exception escaping the call (e.g. a KeyError from a
missing dynamics parameter). -/
abbrev FsolveOracle := ParamMap → ℚ → Bool → State → Option State

/-- Oracle for `StabilityAnalyzer.eigenanalysis` at a state and constant
intake: `(is_stable, max real part of the eigenvalues)`, or `none` when
that call raises.  `eigenanalysis` only reads the model parameters. -/
abbrev EigOracle := ParamMap → State → ℚ → Option (Bool × ℚ)

/-- Oracle for `scipy.optimize.brentq` applied to the threshold closure of
`critical_transition_threshold` on a bracket: the root (or `none` when
`brentq` raises, which the source turns into `None`), together with the
parameter dictionary as the closure's internal evaluations leave it. -/
abbrev BqOracle := ParamMap → ℚ → ℚ → Option ℚ × ParamMap

/-- `baseline_state()` as read from the dictionary
(`params['R_T_0']`, `params['D_0']`); `none` models the KeyError raised
when a key is missing. -/
def baseline_state_map (ps : ParamMap) : Option State :=
  match getP? ps "R_T_0", getP? ps "D_0" with
  | some rt, some d0 => some ![0, 0, 0, rt, d0]
  | _, _ => none

/-- `NicotineRewardModel.simulate`: default initial state is the baseline;
integration failure raises (`Except.error`).  The parameter dictionary is
returned alongside: the body never writes to it. -/
def simulate (ivp : IvpOracle) (ps : ParamMap) (t_span : ℚ × ℚ)
    (input_func : ℚ → ℚ) (y0? : Option State) (method : String) :
    Except String Traj × ParamMap :=
  match y0? with
  | none =>
    match baseline_state_map ps with
    | none => (.error "KeyError", ps)
    | some y0 =>
      match ivp ps t_span input_func y0 method with
      | none => (.error "Integration failed", ps)
      | some tr => (.ok tr, ps)
  | some y0 =>
    match ivp ps t_span input_func y0 method with
    | none => (.error "Integration failed", ps)
    | some tr => (.ok tr, ps)

/-- `NicotineRewardModel.steady_state`: warm-start simulation from the
baseline over a horizon of 500 (upregulation frozen) or 100000
(upregulation free), then hand the final sample to `fsolve`, whose last
iterate is returned unconditionally. -/
def steady_state (ivp : IvpOracle) (fs : FsolveOracle) (ps : ParamMap)
    (I_const : ℚ) (include_upregulation : Bool) :
    Except String State × ParamMap :=
  match baseline_state_map ps with
  | none => (.error "KeyError", ps)
  | some y0 =>
    let horizon : ℚ := if include_upregulation then 100000 else 500
    match (simulate ivp ps (0, horizon) (fun _ => I_const) (some y0) "LSODA").1 with
    | .error e => (.error e, ps)
    | .ok tr =>
      match tr.getLast? with
      | none => (.error "IndexError", ps)
      | some y_guess =>
        match fs ps I_const include_upregulation y_guess with
        | none => (.error "fsolve raised", ps)
        | some y_ss => (.ok y_ss, ps)

/-- Result record of `continuation_1d`; `stability`/`max_eigenvalue` are
present only when `track_stability` is set, and `none` entries are the NaN
markers written by the per-value exception handler. -/
structure ContinResult where
  param_values : List ℚ
  steady_states : List (Option State)
  stability : Option (List Bool)
  max_eigenvalue : Option (List (Option ℚ))

/-- The sweep loop of `continuation_1d`, threading the parameter
dictionary.  For a non-`'I'` name each iteration first executes
`self.model.params[param_name] = p_val`; a failure of the steady-state
solver or (when tracking) of `eigenanalysis` is caught and recorded as the
invalid entry `(NaN row, False, NaN)`; when `track_stability` is off the
preallocated `False`/`0.0` slots are left untouched. -/
def continLoop (ivp : IvpOracle) (fs : FsolveOracle) (eig : EigOracle)
    (name : String) (incl track : Bool) :
    ParamMap → List ℚ →
      List (Option State) × List Bool × List (Option ℚ) × ParamMap
  | ps, [] => ([], [], [], ps)
  | ps, v :: rest =>
    let ps1 := if name = "I" then ps else setP ps name v
    let I_const := if name = "I" then v else 0
    let entry : Option State × Bool × Option ℚ :=
      match (steady_state ivp fs ps1 I_const incl).1 with
      | .error _ => (none, false, none)
      | .ok y =>
        if track then
          match eig ps1 y I_const with
          | none => (none, false, none)
          | some (stb, mev) => (some y, stb, some mev)
        else (some y, false, some 0)
    let out := continLoop ivp fs eig name incl track ps1 rest
    (entry.1 :: out.1, entry.2.1 :: out.2.1, entry.2.2 :: out.2.2.1, out.2.2.2)

/-- `BifurcationAnalyzer.continuation_1d`.  `'I'` is special-cased as the
intake rate (no dictionary write); otherwise the original value is read
with `.get` before the loop and written back after it only when `.get`
found one (`original_param is not None`). -/
def continuation_1d (ivp : IvpOracle) (fs : FsolveOracle) (eig : EigOracle)
    (ps : ParamMap) (param_name : String) (param_range : List ℚ)
    (include_upregulation track_stability : Bool) :
    ContinResult × ParamMap :=
  let varying_input := param_name = "I"
  let original_param : Option ℚ :=
    if varying_input then none else getP? ps param_name
  let out := continLoop ivp fs eig param_name include_upregulation
    track_stability ps param_range
  let psEnd :=
    if varying_input then out.2.2.2
    else
      match original_param with
      | some orig => setP out.2.2.2 param_name orig
      | none => out.2.2.2
  (⟨param_range, out.1,
    if track_stability then some out.2.1 else none,
    if track_stability then some out.2.2.1 else none⟩, psEnd)

/-- The value triple `continuation_1d` records for one sweep value `v`,
as a function of the pre-sweep dictionary (theorem `c5_continuation_alignment`
shows each loop iteration reduces to this). -/
def continEntry (ivp : IvpOracle) (fs : FsolveOracle) (eig : EigOracle)
    (ps : ParamMap) (name : String) (incl track : Bool) (v : ℚ) :
    Option State × Bool × Option ℚ :=
  let ps1 := if name = "I" then ps else setP ps name v
  let I_const := if name = "I" then v else 0
  match (steady_state ivp fs ps1 I_const incl).1 with
  | .error _ => (none, false, none)
  | .ok y =>
    if track then
      match eig ps1 y I_const with
      | none => (none, false, none)
      | some (stb, mev) => (some y, stb, some mev)
    else (some y, false, some 0)

/-- Result record of `parameter_sensitivity`. -/
structure SensResult where
  param_values : List ℚ
  max_real_eigenvalue : List (Option ℚ)
  is_stable : List Bool

/-- The sweep loop of `parameter_sensitivity`: set the parameter, find the
steady state and its eigenanalysis, and on any failure append the
`(NaN, False)` pair and continue. -/
def sensLoop (ivp : IvpOracle) (fs : FsolveOracle) (eig : EigOracle)
    (name : String) (I_const : ℚ) (incl : Bool) :
    ParamMap → List ℚ → List (Option ℚ) × List Bool × ParamMap
  | ps, [] => ([], [], ps)
  | ps, v :: rest =>
    let ps1 := setP ps name v
    let entry : Option ℚ × Bool :=
      match (steady_state ivp fs ps1 I_const incl).1 with
      | .error _ => (none, false)
      | .ok y =>
        match eig ps1 y I_const with
        | none => (none, false)
        | some (stb, mev) => (some mev, stb)
    let out := sensLoop ivp fs eig name I_const incl ps1 rest
    (entry.1 :: out.1, entry.2 :: out.2.1, out.2.2)

/-- `StabilityAnalyzer.parameter_sensitivity`.  The initial
`self.model.params[param_name]` read raises a KeyError carrying the name
when it is absent; after the sweep the original value is written back
unconditionally. -/
def parameter_sensitivity (ivp : IvpOracle) (fs : FsolveOracle)
    (eig : EigOracle) (ps : ParamMap) (param_name : String)
    (param_range : List ℚ) (I_const : ℚ) (include_upregulation : Bool) :
    Except String (SensResult × ParamMap) :=
  match getP? ps param_name with
  | none => .error param_name
  | some original_value =>
    let out := sensLoop ivp fs eig param_name I_const include_upregulation
      ps param_range
    let psEnd := setP out.2.2 param_name original_value
    .ok (⟨param_range, out.1, out.2.1⟩, psEnd)

/-- The `var_indices` dict of `critical_transition_threshold`. -/
def var_indices : List (String × Fin 5) :=
  [("N", 0), ("R_a", 1), ("R_d", 2), ("R_T", 3), ("D", 4)]

/-- `var_indices[threshold_var]`, `none` standing for the KeyError. -/
def varIndex? : List (String × Fin 5) → String → Option (Fin 5)
  | [], _ => none
  | (k, v) :: rest, key => if k = key then some v else varIndex? rest key

/-- The `threshold_func` closure of `critical_transition_threshold`:
set the parameter (unless the name is `'I'`), solve for the steady state
with upregulation, and return `value - threshold`; a failure inside
`steady_state` is caught and returned as NaN (`none`).  The dictionary
mutation survives the call. -/
def cttThresholdFunc (ivp : IvpOracle) (fs : FsolveOracle) (name : String)
    (threshold_value : ℚ) (idx : Fin 5) (ps : ParamMap) (p : ℚ) :
    Option ℚ × ParamMap :=
  let ps1 := if name = "I" then ps else setP ps name p
  let I_const := if name = "I" then p else 0
  match (steady_state ivp fs ps1 I_const true).1 with
  | .error _ => (none, ps1)
  | .ok y => (some (y idx - threshold_value), ps1)

/-- `BifurcationAnalyzer.critical_transition_threshold`: evaluate
`threshold_func` at both endpoints, return `None` when either is NaN or
when the product of the values is positive, otherwise hand the bracket to
`brentq` (whose own failure also yields `None`).  The `Except.error`
carries the KeyError for an unknown threshold variable.  No parameter
restoration is performed anywhere in this function. -/
def critical_transition_threshold (ivp : IvpOracle) (fs : FsolveOracle)
    (bq : BqOracle) (ps : ParamMap) (param_name : String)
    (param_range : ℚ × ℚ) (threshold_var : String) (threshold_value : ℚ) :
    Except String (Option ℚ × ParamMap) :=
  match varIndex? var_indices threshold_var with
  | none => .error threshold_var
  | some var_idx =>
    let r1 := cttThresholdFunc ivp fs param_name threshold_value var_idx
      ps param_range.1
    let r2 := cttThresholdFunc ivp fs param_name threshold_value var_idx
      r1.2 param_range.2
    match r1.1, r2.1 with
    | none, _ => .ok (none, r2.2)
    | some _, none => .ok (none, r2.2)
    | some val_min, some val_max =>
      if val_min * val_max > 0 then .ok (none, r2.2)
      else
        let r3 := bq r2.2 param_range.1 param_range.2
        .ok (r3.1, r3.2)

/-- The hysteresis-width value: `err` models the NumPy broadcast error
raised when the two masked branches have different lengths, `nanW` the NaN
produced by `nanmax` over an all-NaN difference. -/
inductive HystWidth where
  | err : HystWidth
  | nanW : HystWidth
  | val : ℚ → HystWidth
deriving DecidableEq

/-- `np.nanmax(np.abs(a - b))` on two equally long columns with NaN
entries (`none`). -/
def nanmaxAbsDiff (a b : List (Option ℚ)) : HystWidth :=
  let diffs := List.zipWith
    (fun x y => Option.bind x fun u => Option.map (fun w => |u - w|) y) a b
  match diffs.filterMap id with
  | [] => HystWidth.nanW
  | m :: rest => HystWidth.val (rest.foldl max m)

/-- Result record of `hysteresis_loop`. -/
structure HystResult where
  up_sweep : ContinResult
  down_sweep : ContinResult
  hysteresis_width : HystWidth

/-- `BifurcationAnalyzer.hysteresis_loop`: two continuations (up then
down), overlap window computed from the ranges' endpoints
(`p_min = max(up[0], down[-1])`, `p_max = min(up[-1], down[0])`), and the
width as `nanmax` of the elementwise absolute difference of the two
mask-filtered dopamine columns (no interpolation or re-alignment by
parameter value happens in the source).  The source indexes `up[0]`
etc. directly, so empty ranges (IndexError in Python) are outside the
model; `headD`/`getLastD` supply a junk endpoint in that case.
`hystWidthCalc` is the width block of `hysteresis_loop`, named so the
width theorems can speak about it directly. -/
def hystWidthCalc (param_range_up param_range_down : List ℚ)
    (D_up D_down : List (Option ℚ)) : HystWidth :=
  let p_min := max (param_range_up.headD 0) (param_range_down.getLastD 0)
  let p_max := min (param_range_up.getLastD 0) (param_range_down.headD 0)
  if p_max > p_min then
    let mu := ((param_range_up.zip D_up).filter
      (fun pd => p_min ≤ pd.1 ∧ pd.1 ≤ p_max)).map (fun pd => pd.2)
    let md := ((param_range_down.zip D_down).filter
      (fun pd => p_min ≤ pd.1 ∧ pd.1 ≤ p_max)).map (fun pd => pd.2)
    if mu = [] ∨ md = [] then HystWidth.val 0
    else if mu.length = md.length then nanmaxAbsDiff mu md
    else HystWidth.err
  else HystWidth.val 0

def hysteresis_loop (ivp : IvpOracle) (fs : FsolveOracle) (eig : EigOracle)
    (ps : ParamMap) (param_range_up param_range_down : List ℚ)
    (param_name : String) : HystResult × ParamMap :=
  let u := continuation_1d ivp fs eig ps param_name param_range_up true true
  let d := continuation_1d ivp fs eig u.2 param_name param_range_down true true
  let D_up : List (Option ℚ) :=
    u.1.steady_states.map (fun r => r.map (fun y => y 4))
  let D_down : List (Option ℚ) :=
    d.1.steady_states.map (fun r => r.map (fun y => y 4))
  (⟨u.1, d.1, hystWidthCalc param_range_up param_range_down D_up D_down⟩,
    d.2)

/-- The dopamine value the sweep records at one parameter value (row 4 of
`continEntry`), used to state the hysteresis theorems. -/
def sweepD (ivp : IvpOracle) (fs : FsolveOracle) (eig : EigOracle)
    (ps : ParamMap) (name : String) (v : ℚ) : Option ℚ :=
  (continEntry ivp fs eig ps name true true v).1.map (fun y => y 4)

/-- Modelled from the spec (§4.5 `hysteresisLoop`): "hysteresis width =
maximum absolute difference between the two branches' output-variable
level over the overlap" -- the branches compared pointwise in the
parameter value, i.e. each up-sample inside the overlap window is paired
with the down-sample at the *same* parameter value.  This is the
comparison definition for the refinement claim C9; the source pairs the
masked columns positionally instead. -/
def specHysteresisWidth (up down : List (ℚ × Option ℚ)) (lo hi : ℚ) : ℚ :=
  ((up.filter (fun sdd => lo ≤ sdd.1 ∧ sdd.1 ≤ hi)).filterMap
    (fun sdd =>
      Option.bind sdd.2 fun a =>
        Option.bind ((down.find? (fun t => t.1 = sdd.1)).bind
          (fun t => t.2)) fun b => some |a - b|)).foldr max 0


/-! ### Concrete oracle instantiations used in the closed counterexample and
witness theorems.  `oracleIvpFail` is an integrator that always reports
failure; `oracleIvpEcho` returns the one-sample trajectory `[y0]`;
`oracleFsOne` is a root solver whose final iterate is the all-ones vector;
`oracleFsLin` one whose final iterate has dopamine `I + 1/2` and zeros
elsewhere; `oracleEigOk` an eigenanalysis reporting stability with leading
real part `-1/100`; `oracleBqLeft` a bracketing root search that returns
the left endpoint and leaves the dictionary unchanged (as `brentq` does
when the function vanishes there). -/

def oracleIvpFail : IvpOracle := fun _ _ _ _ _ => none

def oracleIvpEcho : IvpOracle := fun _ _ _ y0 _ => some [y0]

def oracleFsOne : FsolveOracle := fun _ _ _ _ => some (fun _ => 1)

def oracleFsLin : FsolveOracle :=
  fun _ I_const _ _ => some (fun j => if j = 4 then I_const + 1/2 else 0)

def oracleEigOk : EigOracle := fun _ _ _ => some (true, -1/100)

def oracleBqLeft : BqOracle := fun ps a _ => (some a, ps)

theorem dynamics_apply0 {K : Type} [LinearOrderedField K] (p : Params K) (t : K)
    (y : Fin 5 → K) (f : K → K) :
    dynamics p t y f 0 = f t - p.k_N * y 0 := rfl

theorem dynamics_apply1 {K : Type} [LinearOrderedField K] (p : Params K) (t : K)
    (y : Fin 5 → K) (f : K → K) :
    dynamics p t y f 1 =
      p.k_on * y 0 * max 0 (y 3 - y 1 - y 2) - p.k_off * y 1 - p.k_des * y 1 := rfl

theorem dynamics_apply2 {K : Type} [LinearOrderedField K] (p : Params K) (t : K)
    (y : Fin 5 → K) (f : K → K) :
    dynamics p t y f 2 = p.k_des * y 1 - p.k_res * y 2 := rfl

theorem dynamics_apply3 {K : Type} [LinearOrderedField K] (p : Params K) (t : K)
    (y : Fin 5 → K) (f : K → K) :
    dynamics p t y f 3 = p.epsilon * (y 4 - p.D_0) := rfl

theorem dynamics_apply4 {K : Type} [LinearOrderedField K] (p : Params K) (t : K)
    (y : Fin 5 → K) (f : K → K) :
    dynamics p t y f 4 = p.k_D * y 1 - p.k_clear * y 4 := rfl

/-! ### Dictionary bookkeeping lemmas -/

theorem setP_setP (ps : ParamMap) (k : String) (a b : ℚ) :
    setP (setP ps k a) k b = setP ps k b := by
  induction ps with
  | nil => simp [setP]
  | cons hd tl ih =>
    obtain ⟨k0, w0⟩ := hd
    by_cases h : k0 = k
    · simp [setP, h]
    · simp [setP, h, ih]

theorem setP_getP?_self (ps : ParamMap) (k : String) (v : ℚ)
    (h : getP? ps k = some v) : setP ps k v = ps := by
  induction ps with
  | nil => simp [getP?] at h
  | cons hd tl ih =>
    obtain ⟨k0, w0⟩ := hd
    by_cases hk : k0 = k
    · simp [getP?, hk] at h
      simp [setP, hk, h]
    · simp [getP?, hk] at h
      simp [setP, hk, ih h]

theorem getP?_setP_self (ps : ParamMap) (k : String) (v : ℚ) :
    getP? (setP ps k v) k = some v := by
  induction ps with
  | nil => simp [setP, getP?]
  | cons hd tl ih =>
    obtain ⟨k0, w0⟩ := hd
    by_cases hk : k0 = k
    · simp [setP, getP?, hk]
    · simp [setP, getP?, hk, ih]

theorem setP_of_getP?_none (ps : ParamMap) (k : String) (v : ℚ)
    (h : getP? ps k = none) : setP ps k v = ps ++ [(k, v)] := by
  induction ps with
  | nil => simp [setP]
  | cons hd tl ih =>
    obtain ⟨k0, w0⟩ := hd
    by_cases hk : k0 = k
    · simp [getP?, hk] at h
    · simp [getP?, hk] at h
      simp [setP, hk, ih h]

theorem getLastD_irrel (l : List ℚ) (h : l ≠ []) (d1 d2 : ℚ) :
    l.getLastD d1 = l.getLastD d2 := by
  cases l with
  | nil => exact absurd rfl h
  | cons a t => rfl

/-! ### Purity of `simulate` and `steady_state` with respect to the
parameter dictionary -/

theorem simulate_params (ivp : IvpOracle) (ps : ParamMap) (t_span : ℚ × ℚ)
    (f : ℚ → ℚ) (y0? : Option State) (method : String) :
    (simulate ivp ps t_span f y0? method).2 = ps := by
  unfold simulate
  repeat' split
  all_goals rfl

theorem steady_state_params (ivp : IvpOracle) (fs : FsolveOracle)
    (ps : ParamMap) (I_const : ℚ) (incl : Bool) :
    (steady_state ivp fs ps I_const incl).2 = ps := by
  unfold steady_state
  dsimp only
  repeat' split
  all_goals rfl

/-! ### Loop bookkeeping for `continuation_1d` and
`parameter_sensitivity` -/

theorem continLoop_params_I (ivp : IvpOracle) (fs : FsolveOracle)
    (eig : EigOracle) (incl track : Bool) (range : List ℚ) :
    ∀ ps : ParamMap,
      (continLoop ivp fs eig "I" incl track ps range).2.2.2 = ps := by
  induction range with
  | nil => intro ps; rfl
  | cons v rest ih => intro ps; simp [continLoop, ih]

theorem continLoop_cons_params (ivp : IvpOracle) (fs : FsolveOracle)
    (eig : EigOracle) (name : String) (incl track : Bool) (ps : ParamMap)
    (v : ℚ) (rest : List ℚ) :
    (continLoop ivp fs eig name incl track ps (v :: rest)).2.2.2 =
      (continLoop ivp fs eig name incl track
        (if name = "I" then ps else setP ps name v) rest).2.2.2 := rfl

theorem continLoop_params_set (ivp : IvpOracle) (fs : FsolveOracle)
    (eig : EigOracle) (name : String) (incl track : Bool)
    (hname : name ≠ "I") (range : List ℚ) :
    ∀ ps : ParamMap, range ≠ [] →
      (continLoop ivp fs eig name incl track ps range).2.2.2 =
        setP ps name (range.getLastD 0) := by
  induction range with
  | nil => intro ps h; exact absurd rfl h
  | cons v rest ih =>
    intro ps _
    rw [continLoop_cons_params, if_neg hname]
    cases rest with
    | nil => rfl
    | cons w t =>
      have h3 : ((v :: w :: t : List ℚ).getLastD 0) = ((w :: t).getLastD 0) :=
        getLastD_irrel (w :: t) (by simp) v 0
      rw [ih _ (by simp), setP_setP, h3]

theorem sensLoop_cons_params (ivp : IvpOracle) (fs : FsolveOracle)
    (eig : EigOracle) (name : String) (I_const : ℚ) (incl : Bool)
    (ps : ParamMap) (v : ℚ) (rest : List ℚ) :
    (sensLoop ivp fs eig name I_const incl ps (v :: rest)).2.2 =
      (sensLoop ivp fs eig name I_const incl (setP ps name v) rest).2.2 := rfl

theorem sensLoop_params (ivp : IvpOracle) (fs : FsolveOracle)
    (eig : EigOracle) (name : String) (I_const : ℚ) (incl : Bool)
    (range : List ℚ) :
    ∀ ps : ParamMap, range ≠ [] →
      (sensLoop ivp fs eig name I_const incl ps range).2.2 =
        setP ps name (range.getLastD 0) := by
  induction range with
  | nil => intro ps h; exact absurd rfl h
  | cons v rest ih =>
    intro ps _
    rw [sensLoop_cons_params]
    cases rest with
    | nil => rfl
    | cons w t =>
      have h3 : ((v :: w :: t : List ℚ).getLastD 0) = ((w :: t).getLastD 0) :=
        getLastD_irrel (w :: t) (by simp) v 0
      rw [ih _ (by simp), setP_setP, h3]

theorem continLoop_entries (ivp : IvpOracle) (fs : FsolveOracle)
    (eig : EigOracle) (name : String) (incl track : Bool) (ps : ParamMap)
    (range : List ℚ) :
    ∀ psc : ParamMap,
      (psc = ps ∨ (name ≠ "I" ∧ ∃ a, psc = setP ps name a)) →
      (continLoop ivp fs eig name incl track psc range).1 =
          range.map
            (fun v => (continEntry ivp fs eig ps name incl track v).1) ∧
        (continLoop ivp fs eig name incl track psc range).2.1 =
          range.map
            (fun v => (continEntry ivp fs eig ps name incl track v).2.1) ∧
        (continLoop ivp fs eig name incl track psc range).2.2.1 =
          range.map
            (fun v => (continEntry ivp fs eig ps name incl track v).2.2) := by
  induction range with
  | nil => intro psc _; simp [continLoop]
  | cons v rest ih =>
    intro psc hinv
    have hps1 : (if name = "I" then psc else setP psc name v) =
        (if name = "I" then ps else setP ps name v) := by
      by_cases hI : name = "I"
      · rcases hinv with h | ⟨hne, _⟩
        · simp [hI, h]
        · exact absurd hI hne
      · rcases hinv with h | ⟨_, a, h⟩
        · simp [hI, h]
        · simp [hI, h, setP_setP]
    have hinv2 : (if name = "I" then ps else setP ps name v) = ps ∨
        (name ≠ "I" ∧ ∃ a,
          (if name = "I" then ps else setP ps name v) = setP ps name a) := by
      by_cases hI : name = "I"
      · exact Or.inl (by simp [hI])
      · exact Or.inr ⟨hI, v, by rw [if_neg hI]⟩
    obtain ⟨ih1, ih2, ih3⟩ := ih _ hinv2
    refine ⟨?_, ?_, ?_⟩ <;>
      simp only [continLoop, continEntry, List.map_cons, hps1, ih1, ih2, ih3]

/-- C1.  The code is at odds with its own test `test_baseline_equilibrium`
and with `baseline_state`'s docstring: under zero intake and default
parameters, the dopamine component of `dynamics(t, baseline_state(), 0)` is
`0 - k_clear * D_0 = -1/4`, far outside any tight tolerance of zero (the
other four components are exactly zero), at every time `t`.  So
`baseline_state()` is not an equilibrium of the implemented dynamics. -/
theorem c1_dynamics_at_baseline :
    (∀ t : ℚ, dynamics defaultParams t (baseline_state defaultParams)
        (fun _ => 0) = ![0, 0, 0, 0, -(1/4)]) ∧
      (-(1/4) : ℚ) ≠ 0 := by
  constructor
  · intro t
    funext i
    fin_cases i <;>
      simp [dynamics, baseline_state, defaultParams] <;> norm_num
  · norm_num

/-- The complex cast of `Jbase`, written out entrywise. -/
theorem Jbase_map_eq :
    Jbase.map (fun q : ℚ => (q : ℂ)) =
      Matrix.of
        ![![(-3/50 : ℂ), 0, 0, 0, 0],
          ![1/2, -3/20, 0, 0, 0],
          ![0, 1/20, -1/100, 0, 0],
          ![0, 0, 0, 0, 1/10000],
          ![0, 1, 0, 0, -1/2]] := by
  funext i j
  fin_cases i <;> fin_cases j <;>
    simp [Jbase, jacobian, baseline_state, defaultParams, Matrix.map_apply,
        Matrix.vecHead, Matrix.vecTail] <;> norm_num

/-- Zero is an eigenvalue of the baseline Jacobian: the total-receptor
direction `e_3` is in the kernel (column 3 of the matrix is identically
zero at the baseline point, where `N = 0`). -/
theorem Jbase_eigen_zero : hasEigen (Jbase.map (fun q : ℚ => (q : ℂ))) 0 := by
  refine ⟨(Pi.single 3 1 : Fin 5 → ℂ), ?_, ?_⟩
  · intro hcontra
    have h1 := congrFun hcontra 3
    simp [Pi.single_apply] at h1
  · rw [Jbase_map_eq]
    funext i
    fin_cases i <;>
      simp [Matrix.mulVec, Matrix.dotProduct, Fin.sum_univ_five, Pi.single_apply,
        Matrix.vecHead, Matrix.vecTail]

/-- C3 counterexample.  The claim "every eigenvalue of the Jacobian at the
baseline state under zero intake has strictly negative real part" is false
for the default parameters: `0` is an exact eigenvalue (eigenvector `e_3`,
the total-receptor direction), and its real part is not negative.
Consequently exact `is_stable` (all `Re(λ) < 0`) is false at baseline. -/
theorem c3_zero_eigenvalue :
    hasEigen (Jbase.map (fun q : ℚ => (q : ℂ))) 0 ∧ ¬ ((0 : ℂ).re < 0) :=
  ⟨Jbase_eigen_zero, by norm_num⟩

/-- C3 amended.  Every eigenvalue of the baseline Jacobian has real part
at most zero (the spectrum is exactly `{0, -k_N, -(k_off+k_des), -k_res,
-k_clear}`), and zero is an eigenvalue: the baseline is marginally, not
strictly, stable. -/
theorem c3_spectrum_nonpositive :
    (∀ μ : ℂ, hasEigen (Jbase.map (fun q : ℚ => (q : ℂ))) μ → μ.re ≤ 0) ∧
      hasEigen (Jbase.map (fun q : ℚ => (q : ℂ))) 0 := by
  refine ⟨?_, Jbase_eigen_zero⟩
  rintro μ ⟨v, hv, hm⟩
  rw [Jbase_map_eq] at hm
  have e : ∀ i, Matrix.mulVec
      (Matrix.of
        ![![(-3/50 : ℂ), 0, 0, 0, 0],
          ![1/2, -3/20, 0, 0, 0],
          ![0, 1/20, -1/100, 0, 0],
          ![0, 0, 0, 0, 1/10000],
          ![0, 1, 0, 0, -1/2]]) v i = (μ • v) i := fun i => congrFun hm i
  have e0 := e 0
  have e1 := e 1
  have e2 := e 2
  have e3 := e 3
  have e4 := e 4
  simp only [Matrix.mulVec, Matrix.dotProduct, Fin.sum_univ_five, Pi.smul_apply,
    smul_eq_mul, Matrix.of_apply, Matrix.cons_val', Matrix.cons_val_zero,
    Matrix.cons_val_one, Matrix.head_cons, Matrix.empty_val',
    Matrix.cons_val_fin_one, Matrix.head_fin_const, Matrix.cons_val_two,
    Matrix.tail_cons, Matrix.cons_val_three, Matrix.cons_val_four] at e0 e1 e2 e3 e4
  by_cases h0 : μ = 0
  · simp [h0]
  by_cases hN : μ = -3/50
  · rw [hN]
    have : ((-3/50 : ℝ) : ℂ) = -3/50 := by norm_cast
    rw [← this, Complex.ofReal_re]
    norm_num
  by_cases hB : μ = -3/20
  · rw [hB]
    have : ((-3/20 : ℝ) : ℂ) = -3/20 := by norm_cast
    rw [← this, Complex.ofReal_re]
    norm_num
  by_cases hR : μ = -1/100
  · rw [hR]
    have : ((-1/100 : ℝ) : ℂ) = -1/100 := by norm_cast
    rw [← this, Complex.ofReal_re]
    norm_num
  by_cases hC : μ = -1/2
  · rw [hC]
    have : ((-1/2 : ℝ) : ℂ) = -1/2 := by norm_cast
    rw [← this, Complex.ofReal_re]
    norm_num
  exfalso
  apply hv
  have hv0 : v 0 = 0 := by
    rcases mul_eq_zero.mp (show (μ + 3/50) * v 0 = 0 by linear_combination -e0) with hc | hz
    · exact absurd (by linear_combination hc) hN
    · exact hz
  have hv1 : v 1 = 0 := by
    rcases mul_eq_zero.mp (show (μ + 3/20) * v 1 = 0 by
        linear_combination -e1 + (1/2 : ℂ) * hv0) with hc | hz
    · exact absurd (by linear_combination hc) hB
    · exact hz
  have hv2 : v 2 = 0 := by
    rcases mul_eq_zero.mp (show (μ + 1/100) * v 2 = 0 by
        linear_combination -e2 + (1/20 : ℂ) * hv1) with hc | hz
    · exact absurd (by linear_combination hc) hR
    · exact hz
  have hv4 : v 4 = 0 := by
    rcases mul_eq_zero.mp (show (μ + 1/2) * v 4 = 0 by
        linear_combination -e4 + (1 : ℂ) * hv1) with hc | hz
    · exact absurd (by linear_combination hc) hC
    · exact hz
  have hv3 : v 3 = 0 := by
    rcases mul_eq_zero.mp (show μ * v 3 = 0 by
        linear_combination -e3 + (1/10000 : ℂ) * hv4) with hc | hz
    · exact absurd hc h0
    · exact hz
  funext i
  fin_cases i <;> simpa using (by assumption : _)

/-- C3 amended, witness: the amended theorem applied at the concrete
eigenvalue `0`, whose eigenvalue certificate discharges the hypothesis. -/
theorem c3_spectrum_nonpositive_witness :
    hasEigen (Jbase.map (fun q : ℚ => (q : ℂ))) 0 ∧ (0 : ℂ).re ≤ 0 :=
  ⟨c3_spectrum_nonpositive.2,
    c3_spectrum_nonpositive.1 0 c3_spectrum_nonpositive.2⟩

/-- An affine real function has the obvious derivative. -/
theorem hasDerivAt_linComb (a b x : ℝ) : HasDerivAt (fun s : ℝ => a * s + b) a x := by
  simpa using ((hasDerivAt_id x).const_mul a).add_const b

/-- C4 amended.  The two named entries of `jacobian` are `k_D` and
`epsilon` at every state, and at every state where the receptor clamp is
inactive (`R_T - R_a - R_d > 0`) every entry `jacobian[i][j]` is the exact
partial derivative of component `i` of `dynamics` with respect to state
component `j`.  (Where the clamp binds, the code returns the unclamped
formula's derivatives instead -- see the counterexample.) -/
theorem c4_jacobian_partials (p : Params ℝ) (y : Fin 5 → ℝ) (I : ℝ) :
    (jacobian p y I 4 1 = p.k_D ∧ jacobian p y I 3 4 = p.epsilon) ∧
      (0 < y 3 - y 1 - y 2 →
        ∀ i j : Fin 5,
          HasDerivAt
            (fun s : ℝ => dynamics p 0 (Function.update y j s) (fun _ => I) i)
            (jacobian p y I i j) (y j)) := by
  constructor
  · constructor
    · simp [jacobian]
    · simp [jacobian]
  intro h i j
  fin_cases i <;> fin_cases j
  · show HasDerivAt
        (fun s : ℝ => dynamics p 0 (Function.update y 0 s) (fun _ => I) 0)
        (jacobian p y I 0 0) (y 0)
    have hfg : (fun s : ℝ => dynamics p 0 (Function.update y 0 s) (fun _ => I) 0) =
        (fun s : ℝ => (-p.k_N) * s + (I)) := by
      funext s
      simp [dynamics_apply0, Function.update_apply]
      try ring
    have hJ : jacobian p y I 0 0 = (-p.k_N) := by
      simp [jacobian, Matrix.vecHead, Matrix.vecTail]
      try ring
    rw [hfg, hJ]
    exact hasDerivAt_linComb _ _ _
  · show HasDerivAt
        (fun s : ℝ => dynamics p 0 (Function.update y 1 s) (fun _ => I) 0)
        (jacobian p y I 0 1) (y 1)
    have hfg : (fun s : ℝ => dynamics p 0 (Function.update y 1 s) (fun _ => I) 0) =
        (fun s : ℝ => ((0 : ℝ)) * s + (I - p.k_N * y 0)) := by
      funext s
      simp [dynamics_apply0, Function.update_apply]
      try ring
    have hJ : jacobian p y I 0 1 = ((0 : ℝ)) := by
      simp [jacobian, Matrix.vecHead, Matrix.vecTail]
      try ring
    rw [hfg, hJ]
    exact hasDerivAt_linComb _ _ _
  · show HasDerivAt
        (fun s : ℝ => dynamics p 0 (Function.update y 2 s) (fun _ => I) 0)
        (jacobian p y I 0 2) (y 2)
    have hfg : (fun s : ℝ => dynamics p 0 (Function.update y 2 s) (fun _ => I) 0) =
        (fun s : ℝ => ((0 : ℝ)) * s + (I - p.k_N * y 0)) := by
      funext s
      simp [dynamics_apply0, Function.update_apply]
      try ring
    have hJ : jacobian p y I 0 2 = ((0 : ℝ)) := by
      simp [jacobian, Matrix.vecHead, Matrix.vecTail]
      try ring
    rw [hfg, hJ]
    exact hasDerivAt_linComb _ _ _
  · show HasDerivAt
        (fun s : ℝ => dynamics p 0 (Function.update y 3 s) (fun _ => I) 0)
        (jacobian p y I 0 3) (y 3)
    have hfg : (fun s : ℝ => dynamics p 0 (Function.update y 3 s) (fun _ => I) 0) =
        (fun s : ℝ => ((0 : ℝ)) * s + (I - p.k_N * y 0)) := by
      funext s
      simp [dynamics_apply0, Function.update_apply]
      try ring
    have hJ : jacobian p y I 0 3 = ((0 : ℝ)) := by
      simp [jacobian, Matrix.vecHead, Matrix.vecTail]
      try ring
    rw [hfg, hJ]
    exact hasDerivAt_linComb _ _ _
  · show HasDerivAt
        (fun s : ℝ => dynamics p 0 (Function.update y 4 s) (fun _ => I) 0)
        (jacobian p y I 0 4) (y 4)
    have hfg : (fun s : ℝ => dynamics p 0 (Function.update y 4 s) (fun _ => I) 0) =
        (fun s : ℝ => ((0 : ℝ)) * s + (I - p.k_N * y 0)) := by
      funext s
      simp [dynamics_apply0, Function.update_apply]
      try ring
    have hJ : jacobian p y I 0 4 = ((0 : ℝ)) := by
      simp [jacobian, Matrix.vecHead, Matrix.vecTail]
      try ring
    rw [hfg, hJ]
    exact hasDerivAt_linComb _ _ _
  · show HasDerivAt
        (fun s : ℝ => dynamics p 0 (Function.update y 0 s) (fun _ => I) 1)
        (jacobian p y I 1 0) (y 0)
    have hfg : (fun s : ℝ => dynamics p 0 (Function.update y 0 s) (fun _ => I) 1) =
        (fun s : ℝ => (p.k_on * max 0 (y 3 - y 1 - y 2)) * s + (-(p.k_off * y 1) - p.k_des * y 1)) := by
      funext s
      simp [dynamics_apply1, Function.update_apply]
      try ring
    have hJ : jacobian p y I 1 0 = (p.k_on * max 0 (y 3 - y 1 - y 2)) := by
      simp [jacobian, Matrix.vecHead, Matrix.vecTail, max_eq_right (le_of_lt h)]
      try ring
    rw [hfg, hJ]
    exact hasDerivAt_linComb _ _ _
  · show HasDerivAt
        (fun s : ℝ => dynamics p 0 (Function.update y 1 s) (fun _ => I) 1)
        (jacobian p y I 1 1) (y 1)
    have hfg : (fun s : ℝ => dynamics p 0 (Function.update y 1 s) (fun _ => I) 1) =
        (fun s : ℝ => p.k_on * y 0 * max 0 (y 3 - s - y 2) - p.k_off * s - p.k_des * s) := by
      funext s
      simp [dynamics_apply1, Function.update_apply]
      try ring
    have hmem : {s : ℝ | 0 < y 3 - s - y 2} ∈ nhds (y 1) :=
      (isOpen_lt continuous_const (by fun_prop)).mem_nhds h
    have hg : HasDerivAt
        (fun s : ℝ => p.k_on * y 0 * (y 3 - s - y 2) - p.k_off * s - p.k_des * s)
        (-(p.k_on * y 0) - p.k_off - p.k_des) (y 1) := by
      have h2 := hasDerivAt_linComb (-(p.k_on * y 0) - p.k_off - p.k_des) (p.k_on * y 0 * (y 3 - y 2)) (y 1)
      have h3 : (fun s : ℝ => (-(p.k_on * y 0) - p.k_off - p.k_des) * s + (p.k_on * y 0 * (y 3 - y 2))) =
          (fun s : ℝ => p.k_on * y 0 * (y 3 - s - y 2) - p.k_off * s - p.k_des * s) := by
        funext s
        ring
      rw [h3] at h2
      exact h2
    have hev : (fun s : ℝ => p.k_on * y 0 * max 0 (y 3 - s - y 2) - p.k_off * s - p.k_des * s) =ᶠ[nhds (y 1)]
        (fun s : ℝ => p.k_on * y 0 * (y 3 - s - y 2) - p.k_off * s - p.k_des * s) := by
      filter_upwards [hmem] with s hs
      have hs2 : (0 : ℝ) < y 3 - s - y 2 := hs
      rw [max_eq_right (le_of_lt hs2)]
    have hJ : jacobian p y I 1 1 = (-(p.k_on * y 0) - p.k_off - p.k_des) := by
      simp [jacobian, Matrix.vecHead, Matrix.vecTail]
      try ring
    rw [hfg, hJ]
    exact hg.congr_of_eventuallyEq hev
  · show HasDerivAt
        (fun s : ℝ => dynamics p 0 (Function.update y 2 s) (fun _ => I) 1)
        (jacobian p y I 1 2) (y 2)
    have hfg : (fun s : ℝ => dynamics p 0 (Function.update y 2 s) (fun _ => I) 1) =
        (fun s : ℝ => p.k_on * y 0 * max 0 (y 3 - y 1 - s) - p.k_off * y 1 - p.k_des * y 1) := by
      funext s
      simp [dynamics_apply1, Function.update_apply]
      try ring
    have hmem : {s : ℝ | 0 < y 3 - y 1 - s} ∈ nhds (y 2) :=
      (isOpen_lt continuous_const (by fun_prop)).mem_nhds h
    have hg : HasDerivAt
        (fun s : ℝ => p.k_on * y 0 * (y 3 - y 1 - s) - p.k_off * y 1 - p.k_des * y 1)
        (-(p.k_on * y 0)) (y 2) := by
      have h2 := hasDerivAt_linComb (-(p.k_on * y 0)) (p.k_on * y 0 * (y 3 - y 1) - p.k_off * y 1 - p.k_des * y 1) (y 2)
      have h3 : (fun s : ℝ => (-(p.k_on * y 0)) * s + (p.k_on * y 0 * (y 3 - y 1) - p.k_off * y 1 - p.k_des * y 1)) =
          (fun s : ℝ => p.k_on * y 0 * (y 3 - y 1 - s) - p.k_off * y 1 - p.k_des * y 1) := by
        funext s
        ring
      rw [h3] at h2
      exact h2
    have hev : (fun s : ℝ => p.k_on * y 0 * max 0 (y 3 - y 1 - s) - p.k_off * y 1 - p.k_des * y 1) =ᶠ[nhds (y 2)]
        (fun s : ℝ => p.k_on * y 0 * (y 3 - y 1 - s) - p.k_off * y 1 - p.k_des * y 1) := by
      filter_upwards [hmem] with s hs
      have hs2 : (0 : ℝ) < y 3 - y 1 - s := hs
      rw [max_eq_right (le_of_lt hs2)]
    have hJ : jacobian p y I 1 2 = (-(p.k_on * y 0)) := by
      simp [jacobian, Matrix.vecHead, Matrix.vecTail]
      try ring
    rw [hfg, hJ]
    exact hg.congr_of_eventuallyEq hev
  · show HasDerivAt
        (fun s : ℝ => dynamics p 0 (Function.update y 3 s) (fun _ => I) 1)
        (jacobian p y I 1 3) (y 3)
    have hfg : (fun s : ℝ => dynamics p 0 (Function.update y 3 s) (fun _ => I) 1) =
        (fun s : ℝ => p.k_on * y 0 * max 0 (s - y 1 - y 2) - p.k_off * y 1 - p.k_des * y 1) := by
      funext s
      simp [dynamics_apply1, Function.update_apply]
      try ring
    have hmem : {s : ℝ | 0 < s - y 1 - y 2} ∈ nhds (y 3) :=
      (isOpen_lt continuous_const (by fun_prop)).mem_nhds h
    have hg : HasDerivAt
        (fun s : ℝ => p.k_on * y 0 * (s - y 1 - y 2) - p.k_off * y 1 - p.k_des * y 1)
        (p.k_on * y 0) (y 3) := by
      have h2 := hasDerivAt_linComb (p.k_on * y 0) (-(p.k_on * y 0 * (y 1 + y 2)) - p.k_off * y 1 - p.k_des * y 1) (y 3)
      have h3 : (fun s : ℝ => (p.k_on * y 0) * s + (-(p.k_on * y 0 * (y 1 + y 2)) - p.k_off * y 1 - p.k_des * y 1)) =
          (fun s : ℝ => p.k_on * y 0 * (s - y 1 - y 2) - p.k_off * y 1 - p.k_des * y 1) := by
        funext s
        ring
      rw [h3] at h2
      exact h2
    have hev : (fun s : ℝ => p.k_on * y 0 * max 0 (s - y 1 - y 2) - p.k_off * y 1 - p.k_des * y 1) =ᶠ[nhds (y 3)]
        (fun s : ℝ => p.k_on * y 0 * (s - y 1 - y 2) - p.k_off * y 1 - p.k_des * y 1) := by
      filter_upwards [hmem] with s hs
      have hs2 : (0 : ℝ) < s - y 1 - y 2 := hs
      rw [max_eq_right (le_of_lt hs2)]
    have hJ : jacobian p y I 1 3 = (p.k_on * y 0) := by
      simp [jacobian, Matrix.vecHead, Matrix.vecTail]
      try ring
    rw [hfg, hJ]
    exact hg.congr_of_eventuallyEq hev
  · show HasDerivAt
        (fun s : ℝ => dynamics p 0 (Function.update y 4 s) (fun _ => I) 1)
        (jacobian p y I 1 4) (y 4)
    have hfg : (fun s : ℝ => dynamics p 0 (Function.update y 4 s) (fun _ => I) 1) =
        (fun s : ℝ => ((0 : ℝ)) * s + (p.k_on * y 0 * max 0 (y 3 - y 1 - y 2) - p.k_off * y 1 - p.k_des * y 1)) := by
      funext s
      simp [dynamics_apply1, Function.update_apply]
      try ring
    have hJ : jacobian p y I 1 4 = ((0 : ℝ)) := by
      simp [jacobian, Matrix.vecHead, Matrix.vecTail]
      try ring
    rw [hfg, hJ]
    exact hasDerivAt_linComb _ _ _
  · show HasDerivAt
        (fun s : ℝ => dynamics p 0 (Function.update y 0 s) (fun _ => I) 2)
        (jacobian p y I 2 0) (y 0)
    have hfg : (fun s : ℝ => dynamics p 0 (Function.update y 0 s) (fun _ => I) 2) =
        (fun s : ℝ => ((0 : ℝ)) * s + (p.k_des * y 1 - p.k_res * y 2)) := by
      funext s
      simp [dynamics_apply2, Function.update_apply]
      try ring
    have hJ : jacobian p y I 2 0 = ((0 : ℝ)) := by
      simp [jacobian, Matrix.vecHead, Matrix.vecTail]
      try ring
    rw [hfg, hJ]
    exact hasDerivAt_linComb _ _ _
  · show HasDerivAt
        (fun s : ℝ => dynamics p 0 (Function.update y 1 s) (fun _ => I) 2)
        (jacobian p y I 2 1) (y 1)
    have hfg : (fun s : ℝ => dynamics p 0 (Function.update y 1 s) (fun _ => I) 2) =
        (fun s : ℝ => (p.k_des) * s + (-(p.k_res * y 2))) := by
      funext s
      simp [dynamics_apply2, Function.update_apply]
      try ring
    have hJ : jacobian p y I 2 1 = (p.k_des) := by
      simp [jacobian, Matrix.vecHead, Matrix.vecTail]
      try ring
    rw [hfg, hJ]
    exact hasDerivAt_linComb _ _ _
  · show HasDerivAt
        (fun s : ℝ => dynamics p 0 (Function.update y 2 s) (fun _ => I) 2)
        (jacobian p y I 2 2) (y 2)
    have hfg : (fun s : ℝ => dynamics p 0 (Function.update y 2 s) (fun _ => I) 2) =
        (fun s : ℝ => (-p.k_res) * s + (p.k_des * y 1)) := by
      funext s
      simp [dynamics_apply2, Function.update_apply]
      try ring
    have hJ : jacobian p y I 2 2 = (-p.k_res) := by
      simp [jacobian, Matrix.vecHead, Matrix.vecTail]
      try ring
    rw [hfg, hJ]
    exact hasDerivAt_linComb _ _ _
  · show HasDerivAt
        (fun s : ℝ => dynamics p 0 (Function.update y 3 s) (fun _ => I) 2)
        (jacobian p y I 2 3) (y 3)
    have hfg : (fun s : ℝ => dynamics p 0 (Function.update y 3 s) (fun _ => I) 2) =
        (fun s : ℝ => ((0 : ℝ)) * s + (p.k_des * y 1 - p.k_res * y 2)) := by
      funext s
      simp [dynamics_apply2, Function.update_apply]
      try ring
    have hJ : jacobian p y I 2 3 = ((0 : ℝ)) := by
      simp [jacobian, Matrix.vecHead, Matrix.vecTail]
      try ring
    rw [hfg, hJ]
    exact hasDerivAt_linComb _ _ _
  · show HasDerivAt
        (fun s : ℝ => dynamics p 0 (Function.update y 4 s) (fun _ => I) 2)
        (jacobian p y I 2 4) (y 4)
    have hfg : (fun s : ℝ => dynamics p 0 (Function.update y 4 s) (fun _ => I) 2) =
        (fun s : ℝ => ((0 : ℝ)) * s + (p.k_des * y 1 - p.k_res * y 2)) := by
      funext s
      simp [dynamics_apply2, Function.update_apply]
      try ring
    have hJ : jacobian p y I 2 4 = ((0 : ℝ)) := by
      simp [jacobian, Matrix.vecHead, Matrix.vecTail]
      try ring
    rw [hfg, hJ]
    exact hasDerivAt_linComb _ _ _
  · show HasDerivAt
        (fun s : ℝ => dynamics p 0 (Function.update y 0 s) (fun _ => I) 3)
        (jacobian p y I 3 0) (y 0)
    have hfg : (fun s : ℝ => dynamics p 0 (Function.update y 0 s) (fun _ => I) 3) =
        (fun s : ℝ => ((0 : ℝ)) * s + (p.epsilon * (y 4 - p.D_0))) := by
      funext s
      simp [dynamics_apply3, Function.update_apply]
      try ring
    have hJ : jacobian p y I 3 0 = ((0 : ℝ)) := by
      simp [jacobian, Matrix.vecHead, Matrix.vecTail]
      try ring
    rw [hfg, hJ]
    exact hasDerivAt_linComb _ _ _
  · show HasDerivAt
        (fun s : ℝ => dynamics p 0 (Function.update y 1 s) (fun _ => I) 3)
        (jacobian p y I 3 1) (y 1)
    have hfg : (fun s : ℝ => dynamics p 0 (Function.update y 1 s) (fun _ => I) 3) =
        (fun s : ℝ => ((0 : ℝ)) * s + (p.epsilon * (y 4 - p.D_0))) := by
      funext s
      simp [dynamics_apply3, Function.update_apply]
      try ring
    have hJ : jacobian p y I 3 1 = ((0 : ℝ)) := by
      simp [jacobian, Matrix.vecHead, Matrix.vecTail]
      try ring
    rw [hfg, hJ]
    exact hasDerivAt_linComb _ _ _
  · show HasDerivAt
        (fun s : ℝ => dynamics p 0 (Function.update y 2 s) (fun _ => I) 3)
        (jacobian p y I 3 2) (y 2)
    have hfg : (fun s : ℝ => dynamics p 0 (Function.update y 2 s) (fun _ => I) 3) =
        (fun s : ℝ => ((0 : ℝ)) * s + (p.epsilon * (y 4 - p.D_0))) := by
      funext s
      simp [dynamics_apply3, Function.update_apply]
      try ring
    have hJ : jacobian p y I 3 2 = ((0 : ℝ)) := by
      simp [jacobian, Matrix.vecHead, Matrix.vecTail]
      try ring
    rw [hfg, hJ]
    exact hasDerivAt_linComb _ _ _
  · show HasDerivAt
        (fun s : ℝ => dynamics p 0 (Function.update y 3 s) (fun _ => I) 3)
        (jacobian p y I 3 3) (y 3)
    have hfg : (fun s : ℝ => dynamics p 0 (Function.update y 3 s) (fun _ => I) 3) =
        (fun s : ℝ => ((0 : ℝ)) * s + (p.epsilon * (y 4 - p.D_0))) := by
      funext s
      simp [dynamics_apply3, Function.update_apply]
      try ring
    have hJ : jacobian p y I 3 3 = ((0 : ℝ)) := by
      simp [jacobian, Matrix.vecHead, Matrix.vecTail]
      try ring
    rw [hfg, hJ]
    exact hasDerivAt_linComb _ _ _
  · show HasDerivAt
        (fun s : ℝ => dynamics p 0 (Function.update y 4 s) (fun _ => I) 3)
        (jacobian p y I 3 4) (y 4)
    have hfg : (fun s : ℝ => dynamics p 0 (Function.update y 4 s) (fun _ => I) 3) =
        (fun s : ℝ => (p.epsilon) * s + (-(p.epsilon * p.D_0))) := by
      funext s
      simp [dynamics_apply3, Function.update_apply]
      try ring
    have hJ : jacobian p y I 3 4 = (p.epsilon) := by
      simp [jacobian, Matrix.vecHead, Matrix.vecTail]
      try ring
    rw [hfg, hJ]
    exact hasDerivAt_linComb _ _ _
  · show HasDerivAt
        (fun s : ℝ => dynamics p 0 (Function.update y 0 s) (fun _ => I) 4)
        (jacobian p y I 4 0) (y 0)
    have hfg : (fun s : ℝ => dynamics p 0 (Function.update y 0 s) (fun _ => I) 4) =
        (fun s : ℝ => ((0 : ℝ)) * s + (p.k_D * y 1 - p.k_clear * y 4)) := by
      funext s
      simp [dynamics_apply4, Function.update_apply]
      try ring
    have hJ : jacobian p y I 4 0 = ((0 : ℝ)) := by
      simp [jacobian, Matrix.vecHead, Matrix.vecTail]
      try ring
    rw [hfg, hJ]
    exact hasDerivAt_linComb _ _ _
  · show HasDerivAt
        (fun s : ℝ => dynamics p 0 (Function.update y 1 s) (fun _ => I) 4)
        (jacobian p y I 4 1) (y 1)
    have hfg : (fun s : ℝ => dynamics p 0 (Function.update y 1 s) (fun _ => I) 4) =
        (fun s : ℝ => (p.k_D) * s + (-(p.k_clear * y 4))) := by
      funext s
      simp [dynamics_apply4, Function.update_apply]
      try ring
    have hJ : jacobian p y I 4 1 = (p.k_D) := by
      simp [jacobian, Matrix.vecHead, Matrix.vecTail]
      try ring
    rw [hfg, hJ]
    exact hasDerivAt_linComb _ _ _
  · show HasDerivAt
        (fun s : ℝ => dynamics p 0 (Function.update y 2 s) (fun _ => I) 4)
        (jacobian p y I 4 2) (y 2)
    have hfg : (fun s : ℝ => dynamics p 0 (Function.update y 2 s) (fun _ => I) 4) =
        (fun s : ℝ => ((0 : ℝ)) * s + (p.k_D * y 1 - p.k_clear * y 4)) := by
      funext s
      simp [dynamics_apply4, Function.update_apply]
      try ring
    have hJ : jacobian p y I 4 2 = ((0 : ℝ)) := by
      simp [jacobian, Matrix.vecHead, Matrix.vecTail]
      try ring
    rw [hfg, hJ]
    exact hasDerivAt_linComb _ _ _
  · show HasDerivAt
        (fun s : ℝ => dynamics p 0 (Function.update y 3 s) (fun _ => I) 4)
        (jacobian p y I 4 3) (y 3)
    have hfg : (fun s : ℝ => dynamics p 0 (Function.update y 3 s) (fun _ => I) 4) =
        (fun s : ℝ => ((0 : ℝ)) * s + (p.k_D * y 1 - p.k_clear * y 4)) := by
      funext s
      simp [dynamics_apply4, Function.update_apply]
      try ring
    have hJ : jacobian p y I 4 3 = ((0 : ℝ)) := by
      simp [jacobian, Matrix.vecHead, Matrix.vecTail]
      try ring
    rw [hfg, hJ]
    exact hasDerivAt_linComb _ _ _
  · show HasDerivAt
        (fun s : ℝ => dynamics p 0 (Function.update y 4 s) (fun _ => I) 4)
        (jacobian p y I 4 4) (y 4)
    have hfg : (fun s : ℝ => dynamics p 0 (Function.update y 4 s) (fun _ => I) 4) =
        (fun s : ℝ => (-p.k_clear) * s + (p.k_D * y 1)) := by
      funext s
      simp [dynamics_apply4, Function.update_apply]
      try ring
    have hJ : jacobian p y I 4 4 = (-p.k_clear) := by
      simp [jacobian, Matrix.vecHead, Matrix.vecTail]
      try ring
    rw [hfg, hJ]
    exact hasDerivAt_linComb _ _ _

/-- C4 counterexample.  At the state `y* = [1,1,1,1,0]` the receptor clamp
is active (`R_T - R_a - R_d = -1 < 0`), so the `dR_a/dt` component of the
dynamics is locally constant in `N` (partial derivative `0`); but
`jacobian` returns `k_on * (R_T - R_a - R_d) = -1/2` for entry `(1,0)`.
Hence `jacobian(y, I)` is not the matrix of partial derivatives of the
clamped dynamics at every state `y`, refuting the claim's universal
quantification over states. -/
theorem c4_clamped_entry_mismatch :
    HasDerivAt
        (fun s : ℝ =>
          dynamics (defaultParams.map (fun q : ℚ => (q : ℝ))) 0
            (Function.update (![1, 1, 1, 1, 0] : Fin 5 → ℝ) 0 s) (fun _ => 0) 1)
        0 ((![1, 1, 1, 1, 0] : Fin 5 → ℝ) 0) ∧
      jacobian (defaultParams.map (fun q : ℚ => (q : ℝ)))
        (![1, 1, 1, 1, 0] : Fin 5 → ℝ) 0 1 0 = -(1/2) ∧
      ¬ HasDerivAt
        (fun s : ℝ =>
          dynamics (defaultParams.map (fun q : ℚ => (q : ℝ))) 0
            (Function.update (![1, 1, 1, 1, 0] : Fin 5 → ℝ) 0 s) (fun _ => 0) 1)
        (jacobian (defaultParams.map (fun q : ℚ => (q : ℝ)))
          (![1, 1, 1, 1, 0] : Fin 5 → ℝ) 0 1 0)
        ((![1, 1, 1, 1, 0] : Fin 5 → ℝ) 0) := by
  have hconst : (fun s : ℝ =>
      dynamics (defaultParams.map (fun q : ℚ => (q : ℝ))) 0
        (Function.update (![1, 1, 1, 1, 0] : Fin 5 → ℝ) 0 s) (fun _ => 0) 1) =
      fun _ : ℝ => (-(3/20) : ℝ) := by
    funext s
    simp [dynamics_apply1, Function.update_apply, Params.map, defaultParams,
      max_def]
    try norm_num
  have hJval : jacobian (defaultParams.map (fun q : ℚ => (q : ℝ)))
      (![1, 1, 1, 1, 0] : Fin 5 → ℝ) 0 1 0 = (-(1/2) : ℝ) := by
    simp [jacobian, Params.map, defaultParams]
    try norm_num
  refine ⟨?_, hJval, ?_⟩
  · rw [hconst]
    exact hasDerivAt_const _ _
  · intro hcontra
    rw [hconst] at hcontra
    have h0 := hcontra.unique (hasDerivAt_const _ _)
    rw [hJval] at h0
    norm_num at h0

/-- C4 amended, witness: the amended theorem applied at the default
parameters, the baseline state (where the clamp gap is `1 > 0`), and entry
`(4,1)`, which also instantiates the named-entry conjunct. -/
theorem c4_jacobian_partials_witness :
    HasDerivAt
      (fun s : ℝ =>
        dynamics (defaultParams.map (fun q : ℚ => (q : ℝ))) 0
          (Function.update
            (baseline_state (defaultParams.map (fun q : ℚ => (q : ℝ)))) 1 s)
          (fun _ => 0) 4)
      (jacobian (defaultParams.map (fun q : ℚ => (q : ℝ)))
        (baseline_state (defaultParams.map (fun q : ℚ => (q : ℝ)))) 0 4 1)
      (baseline_state (defaultParams.map (fun q : ℚ => (q : ℝ))) 1) ∧
    jacobian (defaultParams.map (fun q : ℚ => (q : ℝ)))
        (baseline_state (defaultParams.map (fun q : ℚ => (q : ℝ)))) 0 4 1 =
      (defaultParams.map (fun q : ℚ => (q : ℝ))).k_D := by
  have hpos : (0 : ℝ) <
      baseline_state (defaultParams.map (fun q : ℚ => (q : ℝ))) 3 -
        baseline_state (defaultParams.map (fun q : ℚ => (q : ℝ))) 1 -
        baseline_state (defaultParams.map (fun q : ℚ => (q : ℝ))) 2 := by
    simp [baseline_state, Params.map, defaultParams]
  exact ⟨(c4_jacobian_partials _ _ 0).2 hpos 4 1,
    (c4_jacobian_partials _ _ 0).1.1⟩


/-- A `threshold_func` call with a non-intake name always leaves the
dictionary with that name set to the probed value. -/
theorem cttThresholdFunc_params (ivp : IvpOracle) (fs : FsolveOracle)
    (name : String) (thval : ℚ) (idx : Fin 5) (ps : ParamMap) (p : ℚ)
    (h : name ≠ "I") :
    (cttThresholdFunc ivp fs name thval idx ps p).2 = setP ps name p := by
  unfold cttThresholdFunc
  dsimp only
  split <;> simp [h]

/-- C10.  `simulate` and `steady_state` never modify the model's parameter
dictionary: under every integrator/root-solver behaviour, time span,
intake function, initial state, method, constant intake and upregulation
flag, the dictionary component of the result equals the dictionary passed
in (the source bodies contain no assignment to `self.params`; only the
sweep operations mutate it). -/
theorem c10_simulate_steady_state_pure :
    (∀ (ivp : IvpOracle) (ps : ParamMap) (t_span : ℚ × ℚ) (f : ℚ → ℚ)
        (y0? : Option State) (method : String),
        (simulate ivp ps t_span f y0? method).2 = ps) ∧
      (∀ (ivp : IvpOracle) (fs : FsolveOracle) (ps : ParamMap) (I_const : ℚ)
        (incl : Bool), (steady_state ivp fs ps I_const incl).2 = ps) :=
  ⟨simulate_params, steady_state_params⟩

/-- C5.  `continuation_1d` returns index-aligned, full-length parallel
sequences: `param_values` is the input range itself; `steady_states`
(and, when `track_stability` is set, `stability` and `max_eigenvalue`)
equal the input range mapped elementwise through the per-value outcome
function `continEntry`, whose failure branches record the invalid entry
(state `none` ≙ NaN row, stability `false`, eigenvalue `none` ≙ NaN) in
place.  Hence every output length equals the range length, a per-value
failure never aborts or shortens the sweep, and index `i` of each output
corresponds to element `i` of the range. -/
theorem c5_continuation_alignment (ivp : IvpOracle) (fs : FsolveOracle)
    (eig : EigOracle) (ps : ParamMap) (name : String) (range : List ℚ)
    (incl track : Bool) :
    (continuation_1d ivp fs eig ps name range incl track).1.param_values =
        range ∧
      (continuation_1d ivp fs eig ps name range incl track).1.steady_states =
        range.map
          (fun v => (continEntry ivp fs eig ps name incl track v).1) ∧
      (continuation_1d ivp fs eig ps name range incl track).1.stability =
        (if track then
          some (range.map
            (fun v => (continEntry ivp fs eig ps name incl track v).2.1))
        else none) ∧
      (continuation_1d ivp fs eig ps name range incl track).1.max_eigenvalue =
        (if track then
          some (range.map
            (fun v => (continEntry ivp fs eig ps name incl track v).2.2))
        else none) ∧
      (continuation_1d ivp fs eig ps name range incl
          track).1.steady_states.length = range.length := by
  obtain ⟨h1, h2, h3⟩ :=
    continLoop_entries ivp fs eig name incl track ps range ps (Or.inl rfl)
  refine ⟨rfl, ?_, ?_, ?_, ?_⟩
  · simpa [continuation_1d] using h1
  · simp [continuation_1d, h2]
  · simp [continuation_1d, h3]
  · simp [continuation_1d, h1]

/-- C6.  `parameter_sensitivity` restores the parameter dictionary: for
every oracle behaviour (including ones that fail on some or all sweep
values) and every name present in the dictionary, the dictionary returned
with the result equals the one passed in. -/
theorem c6_parameter_sensitivity_restores (ivp : IvpOracle)
    (fs : FsolveOracle) (eig : EigOracle) (ps : ParamMap) (name : String)
    (range : List ℚ) (I_const : ℚ) (incl : Bool) (v : ℚ)
    (h : getP? ps name = some v) :
    ∃ r : SensResult,
      parameter_sensitivity ivp fs eig ps name range I_const incl =
        .ok (r, ps) := by
  have hps : setP (sensLoop ivp fs eig name I_const incl ps range).2.2
      name v = ps := by
    cases range with
    | nil => simpa [sensLoop] using setP_getP?_self ps name v h
    | cons a t =>
      rw [sensLoop_params ivp fs eig name I_const incl (a :: t) ps (by simp),
        setP_setP]
      exact setP_getP?_self ps name v h
  refine ⟨⟨range, (sensLoop ivp fs eig name I_const incl ps range).1,
    (sensLoop ivp fs eig name I_const incl ps range).2.1⟩, ?_⟩
  unfold parameter_sensitivity
  rw [h]
  dsimp only
  rw [hps]

/-- C6 witness: the theorem applied to the default dictionary, the
existing name `k_N`, a one-value sweep, and an integrator oracle that
always fails, so the per-value failure path is exercised. -/
theorem c6_parameter_sensitivity_restores_witness :
    ∃ r : SensResult,
      parameter_sensitivity oracleIvpFail oracleFsOne oracleEigOk
        default_parameters "k_N" [1] 0 true = .ok (r, default_parameters) :=
  c6_parameter_sensitivity_restores _ _ _ _ _ _ _ _ (3/50)
    (by simp [getP?, default_parameters])

/-- C2 amended.  `continuation_1d` does restore: for a name present in the
dictionary (and trivially for the intake name `'I'`, which is never
written) the dictionary after the call equals the one before, for every
sweep range and every per-value failure pattern.  But
`critical_transition_threshold` never restores: with a non-intake name,
on every early-return path (endpoint NaN or equal endpoint signs) it
returns with the dictionary still holding the name at the upper search
endpoint, the last value its threshold closure probed. -/
theorem c2_restore_amended :
    (∀ (ivp : IvpOracle) (fs : FsolveOracle) (eig : EigOracle)
        (ps : ParamMap) (name : String) (range : List ℚ)
        (incl track : Bool) (v : ℚ),
        getP? ps name = some v →
        (continuation_1d ivp fs eig ps name range incl track).2 = ps) ∧
      (∀ (ivp : IvpOracle) (fs : FsolveOracle) (eig : EigOracle)
        (ps : ParamMap) (range : List ℚ) (incl track : Bool),
        (continuation_1d ivp fs eig ps "I" range incl track).2 = ps) ∧
      (∀ (ivp : IvpOracle) (fs : FsolveOracle) (bq : BqOracle)
        (ps : ParamMap) (name : String) (pr : ℚ × ℚ) (thvar : String)
        (thval : ℚ) (idx : Fin 5), name ≠ "I" →
        varIndex? var_indices thvar = some idx →
        ((cttThresholdFunc ivp fs name thval idx ps pr.1).1 = none ∨
          (cttThresholdFunc ivp fs name thval idx
            (cttThresholdFunc ivp fs name thval idx ps pr.1).2 pr.2).1 =
              none ∨
          (∃ a b, (cttThresholdFunc ivp fs name thval idx ps pr.1).1 =
              some a ∧
            (cttThresholdFunc ivp fs name thval idx
              (cttThresholdFunc ivp fs name thval idx ps pr.1).2 pr.2).1 =
                some b ∧ a * b > 0)) →
        critical_transition_threshold ivp fs bq ps name pr thvar thval =
          .ok (none, setP ps name pr.2)) := by
  refine ⟨?_, ?_, ?_⟩
  · intro ivp fs eig ps name range incl track v h
    unfold continuation_1d
    by_cases hI : name = "I"
    · subst hI
      simp [continLoop_params_I]
    · simp only [if_neg hI, h]
      cases range with
      | nil => simpa [continLoop] using setP_getP?_self ps name v h
      | cons a t =>
        rw [continLoop_params_set ivp fs eig name incl track hI (a :: t) ps
          (by simp), setP_setP]
        exact setP_getP?_self ps name v h
  · intro ivp fs eig ps range incl track
    unfold continuation_1d
    simp [continLoop_params_I]
  · intro ivp fs bq ps name pr thvar thval idx hI hidx hcond
    have hps2 : (cttThresholdFunc ivp fs name thval idx
        (cttThresholdFunc ivp fs name thval idx ps pr.1).2 pr.2).2 =
        setP ps name pr.2 := by
      rw [cttThresholdFunc_params _ _ _ _ _ _ _ hI,
        cttThresholdFunc_params _ _ _ _ _ _ _ hI, setP_setP]
    unfold critical_transition_threshold
    rw [hidx]
    dsimp only
    rcases hcond with h1 | h2 | ⟨a, b, ha, hb, hab⟩
    · rw [h1, hps2]
    · rw [h2, hps2]
      cases hfst : (cttThresholdFunc ivp fs name thval idx ps pr.1).1 <;> rfl
    · rw [ha, hb, hps2]
      dsimp only
      rw [if_pos hab]

/-- C2 counterexample.  `critical_transition_threshold` with the existing
non-intake name `k_N` over the search range `(0, 2)` (with an integrator
oracle that always fails, so both endpoint evaluations yield NaN and the
function returns the not-found marker) leaves the dictionary with
`k_N = 2` instead of restoring `k_N = 3/50`: the parameter mapping after
the call differs from the mapping before it, refuting the claim that
every such operation restores it. -/
theorem c2_ctt_not_restored :
    critical_transition_threshold oracleIvpFail oracleFsOne oracleBqLeft
        default_parameters "k_N" (0, 2) "D" 1 =
      .ok (none, setP default_parameters "k_N" 2) ∧
      setP default_parameters "k_N" 2 ≠ default_parameters := by
  constructor
  · simp [critical_transition_threshold, cttThresholdFunc, varIndex?,
      var_indices, steady_state, simulate, baseline_state_map, getP?, setP,
      default_parameters, oracleIvpFail, oracleFsOne, oracleBqLeft]
  · intro h
    simp [setP, default_parameters] at h
    exact absurd h (by norm_num)

/-- C2 amended, witness: the amended theorem's three parts at concrete
inputs -- a present-name continuation sweep (with failing per-value
oracles) restores, an intake-name sweep restores, and the threshold search
with name `k_N` ends with the dictionary holding `k_N = 2`. -/
theorem c2_restore_amended_witness :
    (continuation_1d oracleIvpFail oracleFsOne oracleEigOk
        default_parameters "k_N" [1, 7] true true).2 = default_parameters ∧
      (continuation_1d oracleIvpFail oracleFsOne oracleEigOk
        default_parameters "I" [1, 7] true true).2 = default_parameters ∧
      critical_transition_threshold oracleIvpFail oracleFsOne oracleBqLeft
          default_parameters "k_N" (0, 2) "D" 1 =
        .ok (none, setP default_parameters "k_N" 2) := by
  refine ⟨c2_restore_amended.1 _ _ _ _ _ _ _ _ (3/50)
      (by simp [getP?, default_parameters]),
    c2_restore_amended.2.1 _ _ _ _ _ _ _,
    c2_restore_amended.2.2 _ _ _ _ _ _ _ _ 4 (by simp)
      (by simp [varIndex?, var_indices]) (Or.inl ?_)⟩
  simp [cttThresholdFunc, steady_state, simulate, baseline_state_map, getP?,
    setP, default_parameters, oracleIvpFail, oracleFsOne]

/-- C7 amended.  `parameter_sensitivity` does fail immediately on an
unknown parameter name, with the KeyError carrying that name, and
`critical_transition_threshold` fails immediately with the offending name
for an unknown threshold variable; but for an unknown *parameter* name
`continuation_1d` (and likewise the threshold search) does not fail at
all -- it proceeds and silently creates a new dictionary entry, which
still holds the last swept value after the call. -/
theorem c7_identifier_errors :
    (∀ (ivp : IvpOracle) (fs : FsolveOracle) (eig : EigOracle)
        (ps : ParamMap) (name : String) (range : List ℚ) (I_const : ℚ)
        (incl : Bool), getP? ps name = none →
        parameter_sensitivity ivp fs eig ps name range I_const incl =
          .error name) ∧
      (∀ (ivp : IvpOracle) (fs : FsolveOracle) (bq : BqOracle)
        (ps : ParamMap) (name : String) (pr : ℚ × ℚ) (thvar : String)
        (thval : ℚ), varIndex? var_indices thvar = none →
        critical_transition_threshold ivp fs bq ps name pr thvar thval =
          .error thvar) ∧
      (∀ (ivp : IvpOracle) (fs : FsolveOracle) (eig : EigOracle)
        (ps : ParamMap) (name : String) (range : List ℚ)
        (incl track : Bool), name ≠ "I" → getP? ps name = none →
        range ≠ [] →
        getP? (continuation_1d ivp fs eig ps name range incl track).2 name =
          some (range.getLastD 0)) := by
  refine ⟨?_, ?_, ?_⟩
  · intro ivp fs eig ps name range I_const incl h
    unfold parameter_sensitivity
    rw [h]
  · intro ivp fs bq ps name pr thvar thval h
    unfold critical_transition_threshold
    rw [h]
  · intro ivp fs eig ps name range incl track hI h hne
    unfold continuation_1d
    simp only [if_neg hI, h]
    rw [continLoop_params_set ivp fs eig name incl track hI range ps hne]
    exact getP?_setP_self ps name (range.getLastD 0)

/-- C7 counterexample.  Calling `continuation_1d` with the unknown
parameter name `"bogus"` does not fail: the sweep runs to completion and
the call returns with a freshly created `("bogus", 1)` entry appended to
the dictionary, refuting the claim that every such operation fails
immediately on an unknown identifier. -/
theorem c7_unknown_name_proceeds :
    getP? default_parameters "bogus" = none ∧
      (continuation_1d oracleIvpFail oracleFsOne oracleEigOk
          default_parameters "bogus" [1] true true).2 =
        default_parameters ++ [("bogus", 1)] := by
  constructor
  · simp [getP?, default_parameters]
  · simp [continuation_1d, continLoop, steady_state, simulate,
      baseline_state_map, getP?, setP, default_parameters, oracleIvpFail,
      oracleFsOne, oracleEigOk]

/-- C7 amended, witness: the two failing-fast parts applied at an unknown
parameter name and an unknown threshold variable, plus the
entry-creating part for `continuation_1d`. -/
theorem c7_identifier_errors_witness :
    parameter_sensitivity oracleIvpFail oracleFsOne oracleEigOk
        default_parameters "bogus" [1] 0 true = .error "bogus" ∧
      critical_transition_threshold oracleIvpFail oracleFsOne oracleBqLeft
        default_parameters "k_N" (0, 2) "Q" 1 = .error "Q" ∧
      getP? (continuation_1d oracleIvpFail oracleFsOne oracleEigOk
        default_parameters "bogus" [1] true true).2 "bogus" = some 1 :=
  ⟨c7_identifier_errors.1 _ _ _ _ _ _ _ _
      (by simp [getP?, default_parameters]),
    c7_identifier_errors.2.1 _ _ _ _ _ _ _ _
      (by simp [varIndex?, var_indices]),
    c7_identifier_errors.2.2 _ _ _ _ _ _ _ _ (by simp)
      (by simp [getP?, default_parameters]) (by simp)⟩


/-- C8 amended.  With a valid threshold variable,
`critical_transition_threshold` returns the not-found marker whenever
either endpoint evaluation of the threshold function is NaN, and whenever
both endpoint values are present with strictly positive product -- in
particular whenever both are strictly positive; it hands the bracket to
`brentq` exactly when both endpoints evaluate and their product is `≤ 0`,
which includes an endpoint lying exactly on the threshold (where the
endpoint signs neither differ nor strictly agree), and then returns
whatever `brentq` produces. -/
theorem c8_threshold_cases (ivp : IvpOracle) (fs : FsolveOracle)
    (bq : BqOracle) (ps : ParamMap) (name : String) (pr : ℚ × ℚ)
    (thvar : String) (thval : ℚ) (idx : Fin 5)
    (hidx : varIndex? var_indices thvar = some idx) :
    (((cttThresholdFunc ivp fs name thval idx ps pr.1).1 = none ∨
        (cttThresholdFunc ivp fs name thval idx
          (cttThresholdFunc ivp fs name thval idx ps pr.1).2 pr.2).1 =
            none) →
      ∃ psq,
        critical_transition_threshold ivp fs bq ps name pr thvar thval =
          .ok (none, psq)) ∧
      (∀ a b, (cttThresholdFunc ivp fs name thval idx ps pr.1).1 = some a →
        (cttThresholdFunc ivp fs name thval idx
          (cttThresholdFunc ivp fs name thval idx ps pr.1).2 pr.2).1 =
            some b →
        a * b > 0 →
        critical_transition_threshold ivp fs bq ps name pr thvar thval =
          .ok (none, (cttThresholdFunc ivp fs name thval idx
            (cttThresholdFunc ivp fs name thval idx ps pr.1).2 pr.2).2)) ∧
      (∀ a b, (cttThresholdFunc ivp fs name thval idx ps pr.1).1 = some a →
        (cttThresholdFunc ivp fs name thval idx
          (cttThresholdFunc ivp fs name thval idx ps pr.1).2 pr.2).1 =
            some b →
        ¬ a * b > 0 →
        critical_transition_threshold ivp fs bq ps name pr thvar thval =
          .ok ((bq (cttThresholdFunc ivp fs name thval idx
              (cttThresholdFunc ivp fs name thval idx ps pr.1).2 pr.2).2
              pr.1 pr.2).1,
            (bq (cttThresholdFunc ivp fs name thval idx
              (cttThresholdFunc ivp fs name thval idx ps pr.1).2 pr.2).2
              pr.1 pr.2).2)) ∧
      (∀ a b, (cttThresholdFunc ivp fs name thval idx ps pr.1).1 = some a →
        (cttThresholdFunc ivp fs name thval idx
          (cttThresholdFunc ivp fs name thval idx ps pr.1).2 pr.2).1 =
            some b →
        0 < a → 0 < b →
        critical_transition_threshold ivp fs bq ps name pr thvar thval =
          .ok (none, (cttThresholdFunc ivp fs name thval idx
            (cttThresholdFunc ivp fs name thval idx ps pr.1).2 pr.2).2)) := by
  refine ⟨?_, ?_, ?_, ?_⟩
  · intro hnan
    unfold critical_transition_threshold
    rw [hidx]
    dsimp only
    rcases hnan with h1 | h2
    · rw [h1]
      exact ⟨_, rfl⟩
    · rw [h2]
      cases hfst : (cttThresholdFunc ivp fs name thval idx ps pr.1).1 <;>
        exact ⟨_, rfl⟩
  · intro a b ha hb hab
    unfold critical_transition_threshold
    rw [hidx]
    dsimp only
    rw [ha, hb]
    dsimp only
    rw [if_pos hab]
  · intro a b ha hb hab
    unfold critical_transition_threshold
    rw [hidx]
    dsimp only
    rw [ha, hb]
    dsimp only
    rw [if_neg hab]
  · intro a b ha hb ha2 hb2
    unfold critical_transition_threshold
    rw [hidx]
    dsimp only
    rw [ha, hb]
    dsimp only
    rw [if_pos (mul_pos ha2 hb2)]

/-- C8 counterexample.  With a steady-state oracle whose equilibrium
dopamine equals the threshold exactly, both endpoint evaluations give
`f = 0`: the endpoint signs are equal (both zero, certainly not
differing), yet the code does not return the not-found marker -- since
`0 * 0 > 0` is false it proceeds to bisection and returns the left
endpoint `0`.  This refutes both "not-found whenever the endpoint values
have the same sign" and "bisection is attempted only when the endpoint
signs differ" at threshold-touching endpoints. -/
theorem c8_zero_endpoint_bisection :
    (cttThresholdFunc oracleIvpEcho oracleFsOne "I" 1 4
        default_parameters 0).1 = some 0 ∧
      (cttThresholdFunc oracleIvpEcho oracleFsOne "I" 1 4
        default_parameters 1).1 = some 0 ∧
      critical_transition_threshold oracleIvpEcho oracleFsOne oracleBqLeft
          default_parameters "I" (0, 1) "D" 1 =
        .ok (some 0, default_parameters) ∧
      some (0 : ℚ) ≠ (none : Option ℚ) := by
  refine ⟨?_, ?_, ?_, by simp⟩ <;>
    simp [critical_transition_threshold, cttThresholdFunc, varIndex?,
      var_indices, steady_state, simulate, baseline_state_map, getP?, setP,
      default_parameters, oracleIvpEcho, oracleFsOne, oracleBqLeft]

/-- C8 amended, witness: the both-endpoints-positive part applied with a
threshold of `1/2` against an equilibrium dopamine of `1`
(`f = 1/2 > 0` at both endpoints), giving the not-found marker. -/
theorem c8_threshold_cases_witness :
    critical_transition_threshold oracleIvpEcho oracleFsOne oracleBqLeft
        default_parameters "I" (0, 1) "D" (1/2) =
      .ok (none, (cttThresholdFunc oracleIvpEcho oracleFsOne "I" (1/2) 4
        (cttThresholdFunc oracleIvpEcho oracleFsOne "I" (1/2) 4
          default_parameters 0).2 1).2) :=
  (c8_threshold_cases oracleIvpEcho oracleFsOne oracleBqLeft
      default_parameters "I" (0, 1) "D" (1/2) 4
      (by simp [varIndex?, var_indices])).2.2.2 (1/2) (1/2)
    (by
      simp [cttThresholdFunc, steady_state, simulate, baseline_state_map,
        getP?, default_parameters, oracleIvpEcho, oracleFsOne]
      norm_num)
    (by
      simp [cttThresholdFunc, steady_state, simulate, baseline_state_map,
        getP?, default_parameters, oracleIvpEcho, oracleFsOne]
      norm_num)
    (by norm_num) (by norm_num)


/-! ### Hysteresis-loop lemmas -/

theorem headD_mem (l : List ℚ) (h : l ≠ []) : l.headD 0 ∈ l := by
  cases l with
  | nil => exact absurd rfl h
  | cons a t => simp

theorem getLastD_mem (l : List ℚ) (h : l ≠ []) : l.getLastD 0 ∈ l := by
  induction l with
  | nil => exact absurd rfl h
  | cons a t ih =>
    cases t with
    | nil => simp [List.getLastD_cons]
    | cons b u =>
      have h2 : ((a :: b :: u : List ℚ).getLastD 0) = ((b :: u).getLastD 0) :=
        getLastD_irrel (b :: u) (by simp) a 0
      rw [h2]
      exact List.mem_cons_of_mem a (ih (by simp))

theorem sorted_headD_le (l : List ℚ) (hs : l.Sorted (· ≤ ·)) :
    ∀ x ∈ l, l.headD 0 ≤ x := by
  cases l with
  | nil => simp
  | cons a t =>
    intro x hx
    rcases List.mem_cons.mp hx with h | h
    · simp [h]
    · simpa using (List.sorted_cons.mp hs).1 x h

theorem sorted_le_getLastD (l : List ℚ) (hs : l.Sorted (· ≤ ·)) :
    ∀ x ∈ l, x ≤ l.getLastD 0 := by
  induction l with
  | nil => simp
  | cons a t ih =>
    obtain ⟨ha, ht⟩ := List.sorted_cons.mp hs
    intro x hx
    cases t with
    | nil =>
      rcases List.mem_cons.mp hx with h | h
      · simp [h, List.getLastD_cons]
      · simp at h
    | cons b u =>
      have h2 : ((a :: b :: u : List ℚ).getLastD 0) = ((b :: u).getLastD 0) :=
        getLastD_irrel (b :: u) (by simp) a 0
      rw [h2]
      rcases List.mem_cons.mp hx with h | h
      · subst h
        exact le_trans (ha b (by simp)) (ih ht b (by simp))
      · exact ih ht x h

theorem reverse_getLastD (l : List ℚ) (d : ℚ) :
    l.reverse.getLastD d = l.headD d := by
  rw [List.getLastD_eq_getLast?, List.getLast?_reverse, List.headD_eq_head?]

theorem reverse_headD (l : List ℚ) (d : ℚ) :
    l.reverse.headD d = l.getLastD d := by
  rw [List.headD_eq_head?, List.head?_reverse, List.getLastD_eq_getLast?]

theorem continuation_states (ivp : IvpOracle) (fs : FsolveOracle)
    (eig : EigOracle) (ps : ParamMap) (name : String) (range : List ℚ)
    (incl track : Bool) :
    (continuation_1d ivp fs eig ps name range incl track).1.steady_states =
      range.map (fun v => (continEntry ivp fs eig ps name incl track v).1) := by
  obtain ⟨h1, _, _⟩ :=
    continLoop_entries ivp fs eig name incl track ps range ps (Or.inl rfl)
  simpa [continuation_1d] using h1

theorem continuation_params_of_I (ivp : IvpOracle) (fs : FsolveOracle)
    (eig : EigOracle) (ps : ParamMap) (range : List ℚ) (incl track : Bool) :
    (continuation_1d ivp fs eig ps "I" range incl track).2 = ps := by
  unfold continuation_1d
  simp [continLoop_params_I]

theorem filter_window_all (l : List ℚ) (B : List (Option ℚ)) (lo hi : ℚ)
    (hall : ∀ x ∈ l, lo ≤ x ∧ x ≤ hi) :
    ((l.zip B).filter (fun pd => lo ≤ pd.1 ∧ pd.1 ≤ hi)).map
        (fun pd => pd.2) =
      (l.zip B).map (fun pd => pd.2) := by
  rw [List.filter_eq_self.mpr]
  intro a ha
  simpa using hall a.1 (List.of_mem_zip ha).1

theorem zip_map_snd (l : List ℚ) (B : List (Option ℚ))
    (h : B.length ≤ l.length) :
    (l.zip B).map (fun pd => pd.2) = B :=
  List.map_snd_zip l B h

/-- When the two swept ranges are elementwise separated (their covered
intervals are disjoint), the width block returns exactly zero, whatever
the dopamine columns are. -/
theorem hystWidthCalc_disjoint (up down : List ℚ) (A B : List (Option ℚ))
    (hup : up ≠ []) (hdown : down ≠ [])
    (hdisj : (∀ x ∈ up, ∀ z ∈ down, x < z) ∨
      (∀ x ∈ up, ∀ z ∈ down, z < x)) :
    hystWidthCalc up down A B = HystWidth.val 0 := by
  have hno : ¬ (max (up.headD 0) (down.getLastD 0) <
      min (up.getLastD 0) (down.headD 0)) := by
    rcases hdisj with hlt | hlt
    · have h1 : up.getLastD 0 < down.getLastD 0 :=
        hlt _ (getLastD_mem up hup) _ (getLastD_mem down hdown)
      have h2 := min_le_left (up.getLastD 0) (down.headD 0)
      have h3 := le_max_right (up.headD 0) (down.getLastD 0)
      intro hcon
      linarith
    · have h1 : down.headD 0 < up.headD 0 :=
        hlt _ (headD_mem up hup) _ (headD_mem down hdown)
      have h2 := min_le_right (up.getLastD 0) (down.headD 0)
      have h3 := le_max_left (up.headD 0) (down.getLastD 0)
      intro hcon
      linarith
  unfold hystWidthCalc
  dsimp only
  rw [if_neg hno]

/-- With an ascending up-range and the same grid reversed for the down
sweep, the whole grid lies in the overlap window and the width block is
the positional `nanmax` of the dopamine column against its own reversal:
index `i` is paired with index `n-1-i`, i.e. parameter `p_i` with its
mirror image, not with itself. -/
theorem hystWidthCalc_mirror (up : List ℚ) (D : List (Option ℚ))
    (hs : up.Sorted (· ≤ ·)) (hlt : up.headD 0 < up.getLastD 0)
    (hlen : D.length = up.length) :
    hystWidthCalc up up.reverse D D.reverse = nanmaxAbsDiff D D.reverse := by
  have hupne : up ≠ [] := by
    intro h
    subst h
    simp at hlt
  have hDne : D ≠ [] := by
    intro h
    subst h
    rw [List.length_nil] at hlen
    exact hupne (List.length_eq_zero.mp hlen.symm)
  unfold hystWidthCalc
  rw [reverse_getLastD, reverse_headD, max_self, min_self]
  dsimp only
  rw [if_pos hlt]
  rw [filter_window_all up D (up.headD 0) (up.getLastD 0)
    (fun x hx => ⟨sorted_headD_le up hs x hx, sorted_le_getLastD up hs x hx⟩)]
  rw [filter_window_all up.reverse D.reverse (up.headD 0) (up.getLastD 0)
    (fun x hx => by
      have hx2 := List.mem_reverse.mp hx
      exact ⟨sorted_headD_le up hs x hx2, sorted_le_getLastD up hs x hx2⟩)]
  rw [zip_map_snd up D (le_of_eq hlen),
    zip_map_snd up.reverse D.reverse (by simp [hlen])]
  rw [if_neg (by simp [hDne]), if_pos (by simp)]

/-- C9 amended.  When the covered intervals of the two input ranges are
disjoint, `hysteresis_loop` returns width exactly `0` (this part of the
claim holds).  But over a non-empty overlap the width is *not* the
pointwise-in-parameter maximum difference of the two branches: the source
subtracts the two mask-filtered dopamine columns positionally, so for an
ascending up-range swept down in reverse order (the intended use) each
parameter value is compared against its mirror image across the overlap,
and the width equals `nanmax |D - reverse D|` of a single branch. -/
theorem c9_hysteresis_amended :
    (∀ (ivp : IvpOracle) (fs : FsolveOracle) (eig : EigOracle)
        (ps : ParamMap) (name : String) (up down : List ℚ),
        up ≠ [] → down ≠ [] →
        ((∀ x ∈ up, ∀ z ∈ down, x < z) ∨ (∀ x ∈ up, ∀ z ∈ down, z < x)) →
        (hysteresis_loop ivp fs eig ps up down name).1.hysteresis_width =
          HystWidth.val 0) ∧
      (∀ (ivp : IvpOracle) (fs : FsolveOracle) (eig : EigOracle)
        (ps : ParamMap) (up : List ℚ), up.Sorted (· ≤ ·) →
        up.headD 0 < up.getLastD 0 →
        (hysteresis_loop ivp fs eig ps up up.reverse "I").1.hysteresis_width =
          nanmaxAbsDiff (up.map (sweepD ivp fs eig ps "I"))
            ((up.map (sweepD ivp fs eig ps "I")).reverse)) := by
  constructor
  · intro ivp fs eig ps name up down hup hdown hdisj
    unfold hysteresis_loop
    dsimp only
    exact hystWidthCalc_disjoint up down _ _ hup hdown hdisj
  · intro ivp fs eig ps up hs hlt
    unfold hysteresis_loop
    dsimp only
    rw [continuation_params_of_I, continuation_states, continuation_states,
      List.map_map, List.map_map]
    have hcomp : ((fun r : Option State => r.map fun y => y 4) ∘
        (fun v => (continEntry ivp fs eig ps "I" true true v).1)) =
        sweepD ivp fs eig ps "I" := rfl
    rw [hcomp, List.map_reverse]
    exact hystWidthCalc_mirror up (up.map (sweepD ivp fs eig ps "I")) hs hlt
      (by simp)

/-- C9 counterexample.  Up-sweep over `[0, 1]`, down-sweep over `[1, 0]`,
with a steady-state oracle whose dopamine is `I + 1/2`: the two branches
are the same function of the parameter, so the claimed width (maximum
pointwise-in-parameter difference over the overlap, computed here by the
spec-following `specHysteresisWidth`) is `0`; but the code returns
width `1 = |D(0) - D(1)|`, because it subtracts the masked columns
positionally and the down column is the up column reversed. -/
theorem c9_positional_pairing :
    (hysteresis_loop oracleIvpEcho oracleFsLin oracleEigOk
        default_parameters [0, 1] [1, 0] "I").1.hysteresis_width =
      HystWidth.val 1 ∧
      specHysteresisWidth
          ([0, 1].zip ((hysteresis_loop oracleIvpEcho oracleFsLin oracleEigOk
            default_parameters [0, 1] [1, 0]
              "I").1.up_sweep.steady_states.map
                (fun r => r.map (fun y => y 4))))
          ([1, 0].zip ((hysteresis_loop oracleIvpEcho oracleFsLin oracleEigOk
            default_parameters [0, 1] [1, 0]
              "I").1.down_sweep.steady_states.map
                (fun r => r.map (fun y => y 4)))) 0 1 = 0 ∧
      HystWidth.val 1 ≠ HystWidth.val 0 := by
  refine ⟨?_, ?_, by simp⟩ <;>
    simp [hysteresis_loop, hystWidthCalc, continuation_1d, continLoop,
      steady_state, simulate, baseline_state_map, getP?, setP,
      default_parameters, oracleIvpEcho, oracleFsLin, oracleEigOk,
      nanmaxAbsDiff, specHysteresisWidth]

/-- C9 amended, witness: the disjoint part on ranges `[0,1]` and `[3,2]`
(width exactly `0`), and the mirror part on the ascending range `[0,1]`
swept back in reverse. -/
theorem c9_hysteresis_amended_witness :
    (hysteresis_loop oracleIvpEcho oracleFsLin oracleEigOk
        default_parameters [0, 1] [3, 2] "I").1.hysteresis_width =
      HystWidth.val 0 ∧
      (hysteresis_loop oracleIvpEcho oracleFsLin oracleEigOk
          default_parameters [0, 1]
          ([0, 1] : List ℚ).reverse "I").1.hysteresis_width =
        nanmaxAbsDiff
          (([0, 1] : List ℚ).map (sweepD oracleIvpEcho oracleFsLin oracleEigOk
            default_parameters "I"))
          ((([0, 1] : List ℚ).map (sweepD oracleIvpEcho oracleFsLin oracleEigOk
            default_parameters "I")).reverse) := by
  constructor
  · exact c9_hysteresis_amended.1 _ _ _ _ _ _ _ (by simp) (by simp)
      (Or.inl (by
        intro x hx z hz
        fin_cases hx <;> fin_cases hz <;> norm_num))
  · exact c9_hysteresis_amended.2 _ _ _ _ _
      (by simp [List.sorted_cons])
      (by norm_num [List.getLastD_cons])

end NicotineReinforcement
